import Mathlib

/-!
Verification of the go-expandenv placeholder-expansion engine.

The definitions below are a shallow embedding of `expandenv.go`
(package `expandenv`, the final `VariableLookup`-based iteration):
`Expand`, `expandValue`, the two regular expressions they compile, and
the `ExpandMap` resolver.  Go's `interface{}` value trees are embedded
as the inductive `Value`, Go strings as Lean `String` / `List Char`,
and the two regexes as explicit scanners proved against their RE2
(leftmost-first) matching semantics.
-/



/-- Models Go `float64` results of `strconv.ParseFloat`.  Finite values are
kept as exact rationals (every literal appearing in the claims, such as
`42.5`, is exactly representable); IEEE rounding of decimal literals to the
nearest binary double is not modelled, nor are range errors on huge
exponents. -/
inductive GoFloat where
  | finite (q : ℚ)
  | posInf
  | negInf
  | nan
deriving DecidableEq, Repr

/-- Numeric value of a list of decimal digit characters, by left fold. -/
def digitsVal (l : List Char) : Nat :=
  l.foldl (fun a c => a * 10 + (c.toNat - 48)) 0

/-- All-decimal-digit check plus value: `some` iff the list is nonempty and
every character is a decimal digit. -/
def decDigitsVal (l : List Char) : Option Nat :=
  if l = [] then none
  else if l.all Char.isDigit then some (digitsVal l) else none

/-- Smallest Go `int` (64-bit) value, the lower bound checked by
`strconv.Atoi`. -/
def int64Min : Int := -(2 ^ 63)

/-- Largest Go `int` (64-bit) value, the upper bound checked by
`strconv.Atoi`. -/
def int64Max : Int := 2 ^ 63 - 1

/-- Models `strconv.Atoi`: an optional sign followed by one or more decimal
digits, rejecting values outside the 64-bit `int` range (Go then reports
`ErrRange`, which `expandValue` treats the same as a syntax error). -/
def goAtoi (s : String) : Option Int :=
  match s.data with
  | '+' :: rest =>
    (decDigitsVal rest).bind fun n =>
      if (n : Int) ≤ int64Max then some (n : Int) else none
  | '-' :: rest =>
    (decDigitsVal rest).bind fun n =>
      if int64Min ≤ -(n : Int) then some (-(n : Int)) else none
  | rest =>
    (decDigitsVal rest).bind fun n =>
      if (n : Int) ≤ int64Max then some (n : Int) else none

/-- Leading sign of a numeric literal: `(negative?, remaining characters)`. -/
def splitSign : List Char → Bool × List Char
  | '+' :: r => (false, r)
  | '-' :: r => (true, r)
  | r => (false, r)

/-- The special IEEE forms accepted by `strconv.ParseFloat`:
case-insensitive `inf` / `infinity` with optional sign, and unsigned
`nan`. -/
def goFloatSpecial (l : List Char) : Option GoFloat :=
  let low := l.map Char.toLower
  if low = "inf".data ∨ low = "infinity".data then some .posInf
  else if low = "+inf".data ∨ low = "+infinity".data then some .posInf
  else if low = "-inf".data ∨ low = "-infinity".data then some .negInf
  else if low = "nan".data then some .nan
  else none

/-- Hexadecimal digit test, as the mantissa loop of `strconv`'s
`readFloat` accepts after a `0x` prefix. -/
def isHexDigitGo (c : Char) : Bool :=
  c.isDigit ∨ ('a' ≤ c.toLower ∧ c.toLower ≤ 'f')

/-- Numeric value of a decimal or hexadecimal digit character. -/
def digitValGo (c : Char) : Nat :=
  if c.isDigit then c.toNat - 48 else c.toLower.toNat - 87

/-- Scanner state of the mantissa loop of `strconv`'s `readFloat`:
accumulated digit value, digit count, digit position of the decimal point,
and the `sawdot` / `sawdigits` / `underscores` flags the loop tracks. -/
structure MantSt where
  mant : Nat
  nd : Nat
  dp : Nat
  sawdot : Bool
  sawdigits : Bool
  underscores : Bool

/-- The mantissa loop of `readFloat`: digits of the given base, at most
one decimal point, and underscores (recorded for the later `underscoreOK`
validation), stopping at the first other character. -/
def scanMantissa (hex : Bool) : List Char → MantSt → MantSt × List Char
  | [], st => (st, [])
  | c :: rest, st =>
    if c = '_' then scanMantissa hex rest { st with underscores := true }
    else if c = '.' then
      if st.sawdot then (st, c :: rest)
      else scanMantissa hex rest { st with sawdot := true, dp := st.nd }
    else if (if hex then isHexDigitGo c else c.isDigit) then
      scanMantissa hex rest
        { st with mant := st.mant * (if hex then 16 else 10) + digitValGo c,
                  nd := st.nd + 1, sawdigits := true }
    else (st, c :: rest)

/-- The exponent-digit loop of `readFloat`: decimal digits with
underscores permitted between them (validated afterwards by
`underscoreOK`).  The accumulated value is kept exact rather than capped
at `10^4` as Go does; the cap only matters for literals whose magnitude
already falls in the overflow or underflow class either way. -/
def scanExpDigits : List Char → Nat → Bool → Nat × Bool × List Char
  | [], e, u => (e, u, [])
  | c :: rest, e, u =>
    if c.isDigit then scanExpDigits rest (e * 10 + (c.toNat - 48)) u
    else if c = '_' then scanExpDigits rest e true
    else (e, u, c :: rest)

/-- The state loop of `strconv.underscoreOK`: `saw` classifies the last
character seen — a caret for the start of the number, `0` for a digit or
base prefix, an underscore, or `!` for anything else. -/
def underscoreOKLoop (hex : Bool) : List Char → Char → Bool
  | [], saw => saw ≠ '_'
  | c :: rest, saw =>
    if c.isDigit ∨ (hex ∧ 'a' ≤ c.toLower ∧ c.toLower ≤ 'f') then
      underscoreOKLoop hex rest '0'
    else if c = '_' then
      if saw ≠ '0' then false else underscoreOKLoop hex rest '_'
    else if saw = '_' then false
    else underscoreOKLoop hex rest '!'

/-- Models `strconv.underscoreOK`: underscores in a numeric literal must
sit between successive digits, with the base prefix counting as a
digit. -/
def underscoreOK (l : List Char) : Bool :=
  let l1 := match l with
    | c :: rest => if c = '-' ∨ c = '+' then rest else l
    | [] => l
  match l1 with
  | c0 :: c1 :: rest =>
    if c0 = '0' ∧ (c1.toLower = 'b' ∨ c1.toLower = 'o' ∨ c1.toLower = 'x') then
      underscoreOKLoop (c1.toLower = 'x') rest '0'
    else underscoreOKLoop false l1 '^'
  | _ => underscoreOKLoop false l1 '^'

/-- Models `strconv`'s `readFloat` followed by `ParseFloat`'s
full-consumption check: optional sign, a decimal mantissa with optional
`e` exponent or (after `0x`) a hexadecimal mantissa with mandatory binary
`p` exponent, at least one mantissa digit, underscore placement validated
by `underscoreOK`, and nothing left over.  The exact rational value of the
literal is returned; rounding it to the nearest binary double is not
modelled (no claim depends on a value that is not exactly
representable). -/
def goReadFloat (l : List Char) : Option ℚ :=
  let sgn := splitSign l
  let hex : Bool := match sgn.2 with
    | '0' :: x :: _ :: _ => x = 'x' ∨ x = 'X'
    | _ => false
  let afterBase := if hex then sgn.2.drop 2 else sgn.2
  let scan := scanMantissa hex afterBase ⟨0, 0, 0, false, false, false⟩
  let st := scan.1
  if ¬ st.sawdigits then none
  else
    let dp := if st.sawdot then st.dp else st.nd
    let frac : ℤ := (st.nd : ℤ) - (dp : ℤ)
    let expPart : Option (ℤ × Bool × List Char) :=
      match scan.2 with
      | c :: r =>
        if (if hex then c = 'p' ∨ c = 'P' else c = 'e' ∨ c = 'E') then
          let es := splitSign r
          match es.2 with
          | d :: _ =>
            if d.isDigit then
              let ed := scanExpDigits es.2 0 false
              some ((if es.1 then -(ed.1 : ℤ) else (ed.1 : ℤ)), ed.2.1, ed.2.2)
            else none
          | [] => none
        else if hex then none
        else some (0, false, c :: r)
      | [] => if hex then none else some (0, false, [])
    match expPart with
    | none => none
    | some (e, eu, rest) =>
      if rest ≠ [] then none
      else if (st.underscores ∨ eu) ∧ ¬ underscoreOK l then none
      else
        let q : ℚ :=
          if hex then (st.mant : ℚ) * (2 : ℚ) ^ (e - 4 * frac)
          else (st.mant : ℚ) * (10 : ℚ) ^ (e - frac)
        some (if sgn.1 then -q else q)

/-- Exact threshold at which a literal's value rounds beyond the largest
finite `float64` (half an ulp above the maximum), making
`strconv.ParseFloat` return an `ErrRange` error. -/
def float64Overflow : ℚ := 2 ^ 1024 - 2 ^ 970

/-- Models `strconv.ParseFloat(s, 64)` as `expandValue` observes it: the
special `inf`/`nan` forms, decimal and `0x`-hexadecimal literals with
underscore digit separators, and the `ErrRange` overflow path (a non-nil
error, which `expandValue` turns into `InvalidNumber` like any other
failure).  Values stay exact rationals: IEEE rounding, the flush of
sub-subnormal magnitudes to zero, and Go's cap on exponent accumulation
affect only the rounded value, never whether an error occurs. -/
def goParseFloat (s : String) : Option GoFloat :=
  match goFloatSpecial s.data with
  | some f => some f
  | none =>
    match goReadFloat s.data with
    | none => none
    | some q => if float64Overflow ≤ |q| then none else some (.finite q)

/-- The errors `Expand` and `expandValue` can record.  In Go each is a bare
`fmt.Errorf` message; the constructors keep the provenance so that claims
about error kinds are statable, and `ExpErr.message` recovers the exact
Go message text. -/
inductive ExpErr where
  | couldNotParse (tok : String)
  | resolverErr (msg : String)
  | invalidNumber (text : String)
  | invalidBoolean (text : String)
  | unsupportedFormat (format : String)
deriving DecidableEq, Repr

/-- The exact `fmt.Errorf` message text of each error, as written in
`expandenv.go`.  A resolver-supplied error is surfaced verbatim. -/
def ExpErr.message : ExpErr → String
  | .couldNotParse tok => "could not parse " ++ tok
  | .resolverErr msg => msg
  | .invalidNumber t => t ++ " is not a valid number"
  | .invalidBoolean t => t ++ " is not a valid boolean"
  | .unsupportedFormat f => "format " ++ f ++ " is not supported"

/-- Result of one call of a Go `VariableLookup = func(key string) (*string, error)`:
`ok (some v)` is `(&v, nil)`, `ok none` is `(nil, nil)` (the
"intentionally absent" marker), and `err msg` is a non-nil error (the
returned pointer is never consulted in that case by `expandValue`). -/
inductive LookupResult where
  | ok (value : Option String)
  | err (msg : String)
deriving DecidableEq, Repr

/-- The `VariableLookup` function type of `expandenv.go`. -/
def Resolver := String → LookupResult

/-- A successfully expanded single placeholder: the dynamic type of the
`interface{}` that `expandValue` returns on success (string, int, float64
or bool). -/
inductive Flat where
  | fstr (s : String)
  | fint (n : Int)
  | ffloat (f : GoFloat)
  | fbool (b : Bool)
deriving DecidableEq, Repr

/-- The capture groups of the `expandValue` regular expression
`^\$\{(?P<name>[^:]+)(?P<hasFormat>:(?P<format>number|boolean|string))?(?P<hasFallback>:-(?P<fallback>.*))?\}$`:
`format` is `[]` when the group did not participate, and `hasFallback`
records whether the `hasFallback` group matched (its text `:-…` is nonempty
exactly when it participates). -/
structure Placeholder where
  name : List Char
  format : List Char
  hasFallback : Bool
  fallback : List Char
deriving DecidableEq, Repr

/-- Splits a character list at its first `:`: `some (before, after)` when a
colon occurs, `none` otherwise.  This is how the greedy `[^:]+` name group
divides the token interior. -/
def splitAtColon : List Char → Option (List Char × List Char)
  | [] => none
  | c :: rest =>
    if c = ':' then some ([], rest)
    else (splitAtColon rest).map fun p => (c :: p.1, p.2)

/-- Matching of the regex tail `(.*)\}$` against the remaining characters:
`some fb` iff the list is `fb ++ ['\x7d']` where `fb` contains no newline
(RE2 `.` does not match a newline).  The greedy `.*` backtracks exactly to
leave the final closing brace for `\}`. -/
def dotStarBrace : List Char → Option (List Char)
  | [] => none
  | c :: rest =>
    if c = '}' ∧ rest = [] then some []
    else if c = '\n' then none
    else (dotStarBrace rest).map fun fb => c :: fb

/-- The alternation `number|boolean|string` of the format group, tried in
the regex's preference order against the text after the first colon;
returns the matched word and the remaining characters. -/
def tryFormats (t : List Char) : Option (List Char × List Char) :=
  if "number".data.isPrefixOf t then some ("number".data, t.drop 6)
  else if "boolean".data.isPrefixOf t then some ("boolean".data, t.drop 7)
  else if "string".data.isPrefixOf t then some ("string".data, t.drop 6)
  else none

/-- Continuation of the anchored match after the greedy name group has
consumed everything before the first colon: the optional format group is
tried first (with its own optional fallback group), then the fallback
group alone, mirroring the regex's preference order. -/
def parseTail (n t : List Char) : Option Placeholder :=
  match tryFormats t with
  | some (fmt, u) =>
    if u.take 2 = [':', '-'] then
      (dotStarBrace (u.drop 2)).map fun fb => ⟨n, fmt, true, fb⟩
    else if u = ['}'] then some ⟨n, fmt, false, []⟩
    else none
  | none =>
    match t with
    | c :: v =>
      if c = '-' then (dotStarBrace v).map fun fb => ⟨n, [], true, fb⟩
      else none
    | [] => none

/-- Full anchored match of the `expandValue` regular expression under RE2
leftmost-first semantics.  The greedy `[^:]+` forces the name to reach the
first colon when one exists (a shorter name leaves a non-`:`, non-final
remainder that no later regex element can consume); with no colon the name
backtracks exactly one character to leave the closing brace. -/
def parsePH (cs : List Char) : Option Placeholder :=
  match cs with
  | c1 :: c2 :: r =>
    if c1 = '$' ∧ c2 = '{' then
      match splitAtColon r with
      | none =>
        if r.length ≥ 2 ∧ r.getLast? = some '}' then
          some ⟨r.dropLast, [], false, []⟩
        else none
      | some (n, t) =>
        if n = [] then none
        else parseTail n t
    else none
  | _ => none

/-- The `value, err := values(name); if err != nil … ; if value == nil …`
prelude of `expandValue`: on a resolver error the fallback is substituted
when the `:-` clause was present, otherwise the error is surfaced
verbatim; a nil pointer with nil error flows through as `none`. -/
def resolveName (p : Placeholder) (values : Resolver) : Except ExpErr (Option String) :=
  match values ⟨p.name⟩ with
  | .err msg =>
    if ¬ p.hasFallback then .error (.resolverErr msg)
    else .ok (some ⟨p.fallback⟩)
  | .ok v => .ok v

/-- The `switch format` statement of `expandValue`, coercing the resolved
text: pass-through for no tag and for `string`; `strconv.Atoi` then
`strconv.ParseFloat` for `number`; the six case-sensitive literals for
`boolean`.  The final `default` branch is kept even though the regex makes
it unreachable. -/
def coerceFormat (format value : String) : Except ExpErr Flat :=
  if format = "" then .ok (.fstr value)
  else if format = "string" then .ok (.fstr value)
  else if format = "number" then
    match goAtoi value with
    | some n => .ok (.fint n)
    | none =>
      match goParseFloat value with
      | some f => .ok (.ffloat f)
      | none => .error (.invalidNumber value)
  else if format = "boolean" then
    if value = "0" then .ok (.fbool false)
    else if value = "1" then .ok (.fbool true)
    else if value = "false" then .ok (.fbool false)
    else if value = "true" then .ok (.fbool true)
    else if value = "no" then .ok (.fbool false)
    else if value = "yes" then .ok (.fbool true)
    else .error (.invalidBoolean value)
  else .error (.unsupportedFormat format)

/-- Shallow embedding of `expandValue(str string, values VariableLookup)`:
parse the token against the anchored regex (failing with the
`"could not parse …"` error), resolve the name, emit the token verbatim on
a nil value pointer, then coerce per the format tag. -/
def expandValue (str : String) (values : Resolver) : Except ExpErr Flat :=
  match parsePH str.data with
  | none => .error (.couldNotParse str)
  | some p =>
    match resolveName p values with
    | .error e => .error e
    | .ok none => .ok (.fstr str)
    | .ok (some value) => coerceFormat ⟨p.format⟩ value

/-- Matching of `[^\x7d]+\}` against a leading segment: `some (body, rest)`
when the list is `body ++ '\x7d' :: rest` with the first closing brace
ending the match. -/
def spanBody : List Char → Option (List Char × List Char)
  | [] => none
  | c :: rest =>
    if c = '}' then some ([], rest)
    else (spanBody rest).map fun p => (c :: p.1, p.2)

/-- Leading match of the placeholder pattern `\$\{[^\x7d]+\}`:
`some (token, rest)` when the list starts with a complete placeholder
token (whose body is nonempty and brace-free), returning the token text
and the characters after it. -/
def placeholderAt (l : List Char) : Option (List Char × List Char) :=
  match l with
  | c1 :: c2 :: rest =>
    if c1 = '$' ∧ c2 = '{' then
      match spanBody rest with
      | some p =>
        if p.1 = [] then none
        else some ('$' :: '{' :: (p.1 ++ ['}']), p.2)
      | none => none
    else none
  | _ => none

/-- Anchored match of `singleRegex = ^\$\{[^\x7d]+\}$`: the whole string is
exactly one placeholder token. -/
def isSingleChars (cs : List Char) : Bool :=
  match placeholderAt cs with
  | some p => p.2.isEmpty
  | none => false

/-- Rendering of a finite float by Go's `%v` verb.  Only the infinite and
NaN spellings are ever observable in the claims below (the embedded path
stringifies every expanded value, but no claim constrains float output
text), so finite values use the rational's own rendering rather than
reproducing `strconv.FormatFloat`'s shortest-round-trip algorithm. -/
def formatGoFloat : GoFloat → String
  | .finite q => toString q
  | .posInf => "+Inf"
  | .negInf => "-Inf"
  | .nan => "NaN"

/-- Models `fmt.Sprintf("%v", x)` on the dynamic types `expandValue` can
return: strings verbatim, ints in decimal, bools as `true`/`false`. -/
def formatFlat : Flat → String
  | .fstr s => s
  | .fint n => toString n
  | .ffloat f => formatGoFloat f
  | .fbool b => if b then "true" else "false"

/-- Go `interface{}` value trees as decoded from YAML/JSON: the dynamic
types `Expand`'s type switch inspects (`string`, `[]interface{}`,
`map[string]interface{}`) plus the remaining scalar kinds, and `vother`
for any other dynamic type (for example a mapping with non-string keys),
which the recursion's final `return current` catch-all passes through
unchanged.  Go's `map[string]interface{}` is embedded as an association
list; its order stands in for the (in Go unspecified) iteration order of
the range loop. -/
inductive Value where
  | vnull
  | vstr (s : String)
  | vint (n : Int)
  | vfloat (f : GoFloat)
  | vbool (b : Bool)
  | vseq (xs : List Value)
  | vmap (entries : List (String × Value))
  | vother (tag : Nat)

/-- Injection of an `expandValue` result into the value tree, as the
whole-string fast path of `Expand` returns it. -/
def flatToValue : Flat → Value
  | .fstr s => .vstr s
  | .fint n => .vint n
  | .ffloat f => .vfloat f
  | .fbool b => .vbool b

/-- Fuel-indexed form of the `detectRegex.ReplaceAllStringFunc` scan (the
fuel only serves termination; `scanChars` runs it with fuel equal to the
input length, which `scanFuel_congr` shows is always enough, so the
exhaustion branch is never taken).  The scan walks left to right looking
for the leftmost match of `\\?\$\{[^\x7d]+\}`; the optional backslash is
taken greedily, so a backslash immediately preceding a placeholder is part
of the match.  An escaped match is replaced by the token with the
backslash stripped (`str[1:]`), an unescaped one is expanded and
stringified with `fmt.Sprintf("%v", …)`, or kept verbatim while the error
is appended, exactly as the Go replacement closure does. -/
def scanFuel (values : Resolver) : Nat → List Char → List Char × List ExpErr
  | 0, l => (l, [])
  | _ + 1, [] => ([], [])
  | fuel + 1, c :: cs =>
    if c = '\\' then
      match placeholderAt cs with
      | some (tok, rest) =>
        let tl := scanFuel values fuel rest
        (tok ++ tl.1, tl.2)
      | none =>
        let tl := scanFuel values fuel cs
        (c :: tl.1, tl.2)
    else
      match placeholderAt (c :: cs) with
      | some (tok, rest) =>
        let tl := scanFuel values fuel rest
        match expandValue ⟨tok⟩ values with
        | .ok v => ((formatFlat v).data ++ tl.1, tl.2)
        | .error e => (tok ++ tl.1, e :: tl.2)
      | none =>
        let tl := scanFuel values fuel cs
        (c :: tl.1, tl.2)

/-- Embedding of `detectRegex.ReplaceAllStringFunc(current, func …)`
together with the error list the closure accumulates. -/
def scanChars (values : Resolver) (l : List Char) : List Char × List ExpErr :=
  scanFuel values l.length l

/-- The string branch of `Expand`'s recursion: the `singleRegex`
whole-string fast path returns the coerced value as-is (or, on error, the
original string with the error recorded); otherwise the `detectRegex`
replacement scan rebuilds the string. -/
def expandString (values : Resolver) (s : String) : Value × List ExpErr :=
  if isSingleChars s.data then
    match expandValue s values with
    | .ok v => (flatToValue v, [])
    | .error e => (.vstr s, [e])
  else
    let p := scanChars values s.data
    (.vstr ⟨p.1⟩, p.2)

mutual

/-- Shallow embedding of the `recursion` closure inside `Expand`: dispatch
on the dynamic type, expand strings, rebuild slices and maps from expanded
children while collecting their error lists, and pass every other value
through unchanged with no error (the final `return current, []error{}`). -/
def expandV (values : Resolver) : Value → Value × List ExpErr
  | .vstr s => expandString values s
  | .vseq xs =>
    let p := expandList values xs
    (.vseq p.1, p.2)
  | .vmap m =>
    let p := expandEntries values m
    (.vmap p.1, p.2)
  | v => (v, [])

/-- The `[]interface{}` loop of `recursion`: expand each element in order,
appending each element's errors to the aggregate list. -/
def expandList (values : Resolver) : List Value → List Value × List ExpErr
  | [] => ([], [])
  | x :: xs =>
    let hd := expandV values x
    let tl := expandList values xs
    (hd.1 :: tl.1, hd.2 ++ tl.2)

/-- The `map[string]interface{}` loop of `recursion`: expand each entry's
value (keys are never inspected), appending each entry's errors. -/
def expandEntries (values : Resolver) :
    List (String × Value) → List (String × Value) × List ExpErr
  | [] => ([], [])
  | e :: rest =>
    let hd := expandV values e.2
    let tl := expandEntries values rest
    ((e.1, hd.1) :: tl.1, hd.2 ++ tl.2)

end

/-- Flag characters of a `fmt` verb directive. -/
def fmtIsFlag (c : Char) : Bool :=
  c = '#' ∨ c = '0' ∨ c = '+' ∨ c = '-' ∨ c = ' '

/-- Consumes the flag characters after a `%`, as the `simpleFormat` loop
of `fmt`'s `doPrintf` does (its fast path needs an operand, so with no
operands it never fires). -/
def dropFlags : List Char → List Char
  | [] => []
  | c :: rest => if fmtIsFlag c then dropFlags rest else c :: rest

/-- Models `fmt`'s `parsenum`: consumes a run of decimal digits, returning
whether any digit was seen and the remaining characters; a value exceeding
`10^6` trips `tooLarge` and consumes everything. -/
def fmtParsenum : List Char → Nat → Bool → Bool × List Char
  | [], _, isnum => (isnum, [])
  | c :: rest, num, isnum =>
    if c.isDigit then
      if num > 1000000 then (false, [])
      else fmtParsenum rest (num * 10 + (c.toNat - 48)) true
    else (isnum, c :: rest)

/-- Position of the first closing bracket, for `fmt`'s
`parseArgNumber`. -/
def fmtFindClose : List Char → Option Nat
  | [] => none
  | c :: rest =>
    if c = ']' then some 0 else (fmtFindClose rest).map (fun k => k + 1)

/-- Models `fmt`'s `argNumber`/`parseArgNumber` with an empty operand
list: a bracketed argument index always sets `goodArgNum` to false (there
is no operand it could select), consuming through the closing bracket
(just the opening bracket when fewer than three characters remain, or
everything when the bracket never closes).  Returns
`(afterIndex, badIndex, rest)`. -/
def fmtArgNum (l : List Char) : Bool × Bool × List Char :=
  match l with
  | c :: rest =>
    if c = '[' then
      if rest.length + 1 < 3 then (true, true, rest)
      else
        match fmtFindClose rest with
        | some k => (true, true, rest.drop (k + 1))
        | none => (true, true, [])
    else (false, false, c :: rest)
  | [] => (false, false, [])

/-- State carried across the pieces of one `%` directive in `doPrintf`:
text emitted so far (bad-width and bad-precision markers), the
`goodArgNum` flag, the `afterIndex` flag, and the unread characters. -/
structure FmtSt where
  emitted : List Char
  good : Bool
  afterIndex : Bool
  rest : List Char

/-- Flags and the first argument-index of a directive. -/
def fmtStage1 (l : List Char) : FmtSt :=
  let an := fmtArgNum (dropFlags l)
  ⟨[], !an.2.1, an.1, an.2.2⟩

/-- The width of a directive: a `*` consumes no operand (there is none)
and emits the bad-width marker; a numeric width after an argument index
invalidates the index. -/
def fmtStage2 (st : FmtSt) : FmtSt :=
  match st.rest with
  | c :: r =>
    if c = '*' then ⟨st.emitted ++ "%!(BADWIDTH)".data, st.good, false, r⟩
    else
      ⟨st.emitted,
       if st.afterIndex && (fmtParsenum (c :: r) 0 false).1 then false else st.good,
       st.afterIndex, (fmtParsenum (c :: r) 0 false).2⟩
  | [] => ⟨st.emitted, st.good, st.afterIndex, []⟩

/-- The precision of a directive, entered only when a character follows
the dot (`doPrintf` requires `i+1 < end`): its own argument index, then a
`*` (emitting the bad-precision marker) or a digit run. -/
def fmtStage3 (st : FmtSt) : FmtSt :=
  match st.rest with
  | c :: c2 :: r =>
    if c = '.' then
      let g2 := (if st.afterIndex then false else st.good)
        && !(fmtArgNum (c2 :: r)).2.1
      match (fmtArgNum (c2 :: r)).2.2 with
      | c3 :: r2 =>
        if c3 = '*' then ⟨st.emitted ++ "%!(BADPREC)".data, g2, false, r2⟩
        else ⟨st.emitted, g2, (fmtArgNum (c2 :: r)).1,
          (fmtParsenum (c3 :: r2) 0 false).2⟩
      | [] => ⟨st.emitted, g2, (fmtArgNum (c2 :: r)).1, []⟩
    else st
  | _ => st

/-- The trailing argument-index of a directive, tried when none has been
consumed immediately before. -/
def fmtStage4 (st : FmtSt) : FmtSt :=
  if st.afterIndex then st
  else
    let an := fmtArgNum st.rest
    ⟨st.emitted, st.good && !an.2.1, an.1, an.2.2⟩

/-- Composite state after the flags, indices, width and precision of one
directive. -/
def fmtStepSt (l : List Char) : FmtSt :=
  fmtStage4 (fmtStage3 (fmtStage2 (fmtStage1 l)))

/-- One whole `%` directive of `doPrintf` with no operands: after flags,
indices, width and precision, a missing verb yields the no-verb marker, a
`%` verb emits a literal percent, a bad argument index tags the verb with
`(BADINDEX)`, and every other verb — having no operand — is rendered as
the `(MISSING)` form.  Returns the text emitted for the directive and the
unread characters. -/
def fmtStep (l : List Char) : List Char × List Char :=
  match (fmtStepSt l).rest with
  | [] => ((fmtStepSt l).emitted ++ "%!(NOVERB)".data, [])
  | v :: r =>
    if v = '%' then ((fmtStepSt l).emitted ++ ['%'], r)
    else if (fmtStepSt l).good then
      ((fmtStepSt l).emitted ++ ('%' :: '!' :: v :: "(MISSING)".data), r)
    else ((fmtStepSt l).emitted ++ ('%' :: '!' :: v :: "(BADINDEX)".data), r)

/-- Fuel-indexed scan of a format string by `doPrintf` with an empty
operand list (as `fmt.Errorf(strings.Join(errMsgs, ", "))` runs it): plain
characters are copied and each `%` directive is rendered by `fmtStep`.
The fuel only serves termination; every iteration consumes at least one
character, so the input length is always enough fuel
(`fmtZeroFuel_congr`). -/
def fmtZeroFuel : Nat → List Char → List Char
  | 0, l => l
  | _ + 1, [] => []
  | fuel + 1, c :: rest =>
    if c = '%' then
      let p := fmtStep rest
      p.1 ++ fmtZeroFuel fuel p.2
    else c :: fmtZeroFuel fuel rest

/-- Scan of a format string by `doPrintf` with an empty operand list. -/
def fmtZero (l : List Char) : List Char :=
  fmtZeroFuel l.length l

/-- Models `fmt.Errorf(format)` with no operands, as `Expand` calls it on
the joined error messages: the message is the format string with every
verb directive interpreted (and, having no operands, mangled). -/
def goFormatErrorf (format : String) : String :=
  ⟨fmtZero format.data⟩

/-- Shallow embedding of `Expand(input, values)`: run the recursion over
the tree, and when the aggregate error list is nonempty return the single
combined error built by `fmt.Errorf` from the individual messages joined
with the separator `", "` (`fmt.Errorf(strings.Join(errMsgs, ", "))`, so a
`%` inside a message is interpreted as a format verb); otherwise the error
is nil (`none`). -/
def Expand (input : Value) (values : Resolver) : Value × Option String :=
  let p := expandV values input
  if p.2 = [] then (p.1, none)
  else (p.1, some (goFormatErrorf (String.intercalate ", " (p.2.map ExpErr.message))))

/-- The resolver that `ExpandMap(input, values map[string]string)` passes
to `Expand`: a static table lookup whose not-found error message is
`"variable KEY is missing"`. -/
def mapResolver (table : List (String × String)) : Resolver := fun key =>
  match table.lookup key with
  | some v => .ok (some v)
  | none => .err ("variable " ++ key ++ " is missing")

/-- Shallow embedding of `ExpandMap(input, values)`. -/
def ExpandMap (input : Value) (table : List (String × String)) :
    Value × Option String :=
  Expand input (mapResolver table)

/-- Decides whether a value falls into the catch-all branch of the Go type
switch: neither a `string`, nor a `[]interface{}`, nor a
`map[string]interface{}`. -/
def isOtherKind : Value → Bool
  | .vstr _ => false
  | .vseq _ => false
  | .vmap _ => false
  | _ => true

/-- Length bookkeeping for `spanBody`: the characters after the closing
brace are strictly fewer than the input. -/
theorem spanBody_length : ∀ {l b r : List Char},
    spanBody l = some (b, r) → r.length < l.length := by
  intro l
  induction l with
  | nil => intro b r h; simp [spanBody] at h
  | cons c rest ih =>
    intro b r h
    by_cases hc : c = '}'
    · rw [spanBody, if_pos hc] at h
      have h2 : r = rest := (congrArg Prod.snd (Option.some.inj h)).symm
      subst h2
      simp
    · rw [spanBody, if_neg hc] at h
      rcases Option.map_eq_some'.mp h with ⟨p, hp, he⟩
      have h2 : p.2 = r := congrArg Prod.snd he
      subst h2
      exact Nat.lt_trans (ih hp) (Nat.lt_succ_self _)

/-- Length bookkeeping for `placeholderAt`: the characters after a matched
token are strictly fewer than the input. -/
theorem placeholderAt_length : ∀ {l tok rest : List Char},
    placeholderAt l = some (tok, rest) → rest.length < l.length := by
  intro l tok rest h
  rcases l with _ | ⟨c1, _ | ⟨c2, r⟩⟩
  · simp [placeholderAt] at h
  · simp [placeholderAt] at h
  · rw [placeholderAt] at h
    by_cases hd : c1 = '$' ∧ c2 = '{'
    · rw [if_pos hd] at h
      cases hs : spanBody r with
      | none => rw [hs] at h; simp at h
      | some p =>
        rw [hs] at h
        by_cases hb : p.1 = []
        · simp [hb] at h
        · simp [hb] at h
          have h2 : p.2 = rest := h.2
          have hlt := spanBody_length (l := r) (b := p.1) (r := p.2) hs
          subst h2
          simp only [List.length_cons]
          omega
    · rw [if_neg hd] at h; simp at h

/-- Any fuel at least the input length gives the same scan result, so the
fuel in `scanChars` is semantically inert. -/
theorem scanFuel_congr (values : Resolver) : ∀ (f g : Nat) (l : List Char),
    l.length ≤ f → l.length ≤ g → scanFuel values f l = scanFuel values g l := by
  intro f
  induction f with
  | zero =>
    intro g l hf _
    have hl : l = [] := List.eq_nil_of_length_eq_zero (Nat.le_zero.mp hf)
    subst hl
    cases g <;> rfl
  | succ f ih =>
    intro g l hf hg
    cases l with
    | nil => cases g <;> rfl
    | cons c cs =>
      cases g with
      | zero => exact absurd hg (by simp)
      | succ g =>
        have hcs : cs.length ≤ f := by
          simpa using Nat.succ_le_succ_iff.mp hf
        have hcs' : cs.length ≤ g := by
          simpa using Nat.succ_le_succ_iff.mp hg
        rw [scanFuel, scanFuel]
        by_cases hc : c = '\\'
        · rw [if_pos hc, if_pos hc]
          cases hp : placeholderAt cs with
          | none => rw [ih g cs hcs hcs']
          | some p =>
            obtain ⟨tok, rest⟩ := p
            have hlt := placeholderAt_length hp
            show (tok ++ (scanFuel values f rest).1, (scanFuel values f rest).2)
              = (tok ++ (scanFuel values g rest).1, (scanFuel values g rest).2)
            rw [ih g rest (by omega) (by omega)]
        · rw [if_neg hc, if_neg hc]
          cases hp : placeholderAt (c :: cs) with
          | none => rw [ih g cs hcs hcs']
          | some p =>
            obtain ⟨tok, rest⟩ := p
            have hlt := placeholderAt_length hp
            have hl : rest.length ≤ f := by
              simp only [List.length_cons] at hlt
              omega
            have hl' : rest.length ≤ g := by
              simp only [List.length_cons] at hlt
              omega
            show (match expandValue ⟨tok⟩ values with
              | .ok v => ((formatFlat v).data ++ (scanFuel values f rest).1,
                  (scanFuel values f rest).2)
              | .error e => (tok ++ (scanFuel values f rest).1,
                  e :: (scanFuel values f rest).2))
              = (match expandValue ⟨tok⟩ values with
              | .ok v => ((formatFlat v).data ++ (scanFuel values g rest).1,
                  (scanFuel values g rest).2)
              | .error e => (tok ++ (scanFuel values g rest).1,
                  e :: (scanFuel values g rest).2))
            rw [ih g rest hl hl']

/-- Scan of the empty string: nothing to replace. -/
theorem scanChars_nil (v : Resolver) : scanChars v [] = ([], []) := rfl

/-- Unfolding of the scan at an escaped placeholder: the match includes the
leading backslash, the replacement strips it, and the resolver is not
consulted. -/
theorem scanChars_esc (v : Resolver) {cs tok rest : List Char}
    (h : placeholderAt cs = some (tok, rest)) :
    scanChars v ('\\' :: cs) = (tok ++ (scanChars v rest).1, (scanChars v rest).2) := by
  unfold scanChars
  rw [List.length_cons, scanFuel, if_pos rfl, h]
  show (tok ++ (scanFuel v cs.length rest).1, (scanFuel v cs.length rest).2) = _
  have hle : rest.length ≤ cs.length := le_of_lt (placeholderAt_length h)
  rw [scanFuel_congr v cs.length rest.length rest hle le_rfl]

/-- Unfolding of the scan at a backslash that does not precede a
placeholder: the backslash is ordinary text. -/
theorem scanChars_esc_none (v : Resolver) {cs : List Char}
    (h : placeholderAt cs = none) :
    scanChars v ('\\' :: cs) = ('\\' :: (scanChars v cs).1, (scanChars v cs).2) := by
  unfold scanChars
  rw [List.length_cons, scanFuel, if_pos rfl, h]

/-- Unfolding of the scan at an unescaped placeholder that expands
successfully: the stringified expansion is substituted. -/
theorem scanChars_tok_ok (v : Resolver) {c : Char} {cs tok rest : List Char}
    {w : Flat} (hc : c ≠ '\\') (hp : placeholderAt (c :: cs) = some (tok, rest))
    (he : expandValue ⟨tok⟩ v = .ok w) :
    scanChars v (c :: cs)
      = ((formatFlat w).data ++ (scanChars v rest).1, (scanChars v rest).2) := by
  unfold scanChars
  rw [List.length_cons, scanFuel, if_neg hc, hp]
  show (match expandValue ⟨tok⟩ v with
    | .ok w => ((formatFlat w).data ++ (scanFuel v cs.length rest).1,
        (scanFuel v cs.length rest).2)
    | .error e => (tok ++ (scanFuel v cs.length rest).1,
        e :: (scanFuel v cs.length rest).2)) = _
  rw [he]
  have hlt := placeholderAt_length hp
  have hle : rest.length ≤ cs.length := by
    simp only [List.length_cons] at hlt
    omega
  rw [scanFuel_congr v cs.length rest.length rest hle le_rfl]

/-- Unfolding of the scan at an unescaped placeholder whose expansion
fails: the token is kept verbatim and the error recorded in match order. -/
theorem scanChars_tok_err (v : Resolver) {c : Char} {cs tok rest : List Char}
    {e : ExpErr} (hc : c ≠ '\\') (hp : placeholderAt (c :: cs) = some (tok, rest))
    (he : expandValue ⟨tok⟩ v = .error e) :
    scanChars v (c :: cs)
      = (tok ++ (scanChars v rest).1, e :: (scanChars v rest).2) := by
  unfold scanChars
  rw [List.length_cons, scanFuel, if_neg hc, hp]
  show (match expandValue ⟨tok⟩ v with
    | .ok w => ((formatFlat w).data ++ (scanFuel v cs.length rest).1,
        (scanFuel v cs.length rest).2)
    | .error e => (tok ++ (scanFuel v cs.length rest).1,
        e :: (scanFuel v cs.length rest).2)) = _
  rw [he]
  have hlt := placeholderAt_length hp
  have hle : rest.length ≤ cs.length := by
    simp only [List.length_cons] at hlt
    omega
  rw [scanFuel_congr v cs.length rest.length rest hle le_rfl]

/-- Unfolding of the scan at a character that starts no match: it is copied
to the output unchanged. -/
theorem scanChars_skip (v : Resolver) {c : Char} {cs : List Char}
    (hc : c ≠ '\\') (hp : placeholderAt (c :: cs) = none) :
    scanChars v (c :: cs) = (c :: (scanChars v cs).1, (scanChars v cs).2) := by
  unfold scanChars
  rw [List.length_cons, scanFuel, if_neg hc, hp]

/-- Sanity checks mirroring the repository's own test cases (TestExpand in
expandenv_test.go), evaluated end to end on the embedding. -/
theorem goTest_static_string_passthrough : ExpandMap (.vstr "${ENV_A}") [("ENV_A", "a")] = (.vstr "a", none) := rfl
theorem goTest_embedded_substitution : ExpandMap (.vstr "prefix ${ENV_B} suffix") [("ENV_B", "b")]
    = (.vstr "prefix b suffix", none) := rfl
theorem goTest_number_coercion : ExpandMap (.vstr "${ENV_42:number}") [("ENV_42", "42")]
    = (.vint 42, none) := rfl
theorem goTest_escaped_placeholder : ExpandMap (.vstr "\\${ENV_A}") [("ENV_A", "a")]
    = (.vstr "${ENV_A}", none) := rfl
theorem goTest_escaped_embedded : ExpandMap (.vstr "prefix \\${ENV_A} suffix") [("ENV_A", "a")]
    = (.vstr "prefix ${ENV_A} suffix", none) := rfl
theorem goTest_double_backslash : ExpandMap (.vstr "\\\\${X}") [] = (.vstr "\\${X}", none) := rfl
theorem goTest_boolean_yes : ExpandMap (.vstr "${ENV_YES:boolean}") [("ENV_YES", "yes")]
    = (.vbool true, none) := rfl
theorem goTest_boolean_invalid : ExpandMap (.vstr "${ENV_42:boolean}") [("ENV_42", "42")]
    = (.vstr "${ENV_42:boolean}", some "42 is not a valid boolean") := rfl
theorem goTest_embedded_missing : ExpandMap (.vstr "foo: some ${ENV_A} ${ENV_UNKNOWN}") [("ENV_A", "a")]
    = (.vstr "foo: some a ${ENV_UNKNOWN}", some "variable ENV_UNKNOWN is missing") := rfl
theorem goTest_embedded_fallback : ExpandMap (.vstr "foo: some ${ENV_A} |${ENV_UNKNOWN:-fallback}|") [("ENV_A", "a")]
    = (.vstr "foo: some a |fallback|", none) := rfl
theorem goTest_empty_fallback : ExpandMap (.vstr "${ENV_UNKNOWN:-}") [] = (.vstr "", none) := rfl
theorem goTest_multiline_value : ExpandMap (.vstr "some ${M}") [("M", "line1\nline2")]
    = (.vstr "some line1\nline2", none) := rfl
theorem goTest_unrecognized_tag : ExpandMap (.vstr "${X:bogus}") [("X", "v")]
    = (.vstr "${X:bogus}", some "could not parse ${X:bogus}") := rfl
theorem goTest_seq_aggregation : ExpandMap (.vseq [.vstr "${X}", .vstr "${Y}"]) []
    = (.vseq [.vstr "${X}", .vstr "${Y}"],
       some "variable X is missing, variable Y is missing") := rfl
theorem goTest_map_entry : ExpandMap (.vmap [("a", .vstr "${ENV_A}"), ("c", .vint 2)]) [("ENV_A", "b")]
    = (.vmap [("a", .vstr "b"), ("c", .vint 2)], none) := rfl

/-- The recursion dispatches strings to the string branch. -/
theorem expandV_vstr (values : Resolver) (s : String) :
    expandV values (.vstr s) = expandString values s := rfl

/-- With an empty aggregate list the returned error is nil. -/
theorem Expand_of_no_errors {input : Value} {values : Resolver} {v : Value}
    (h : expandV values input = (v, [])) : Expand input values = (v, none) := by
  rw [Expand, h]
  simp

/-- Consuming flags never lengthens the input. -/
theorem dropFlags_length_le : ∀ l : List Char, (dropFlags l).length ≤ l.length := by
  intro l
  induction l with
  | nil => simp [dropFlags]
  | cons c rest ih =>
    by_cases hc : fmtIsFlag c
    · rw [dropFlags, if_pos hc]
      exact le_trans ih (Nat.le_succ _)
    · rw [dropFlags, if_neg hc]

/-- The digit scan never lengthens the input. -/
theorem fmtParsenum_length_le : ∀ (l : List Char) (n : Nat) (b : Bool),
    (fmtParsenum l n b).2.length ≤ l.length := by
  intro l
  induction l with
  | nil => intro n b; simp [fmtParsenum]
  | cons c rest ih =>
    intro n b
    rw [fmtParsenum]
    by_cases hc : c.isDigit
    · rw [if_pos hc]
      by_cases hn : n > 1000000
      · rw [if_pos hn]; simp
      · rw [if_neg hn]
        exact le_trans (ih _ _) (Nat.le_succ _)
    · rw [if_neg hc]

/-- A found closing bracket lies within the input. -/
theorem fmtFindClose_le : ∀ {l : List Char} {k : Nat},
    fmtFindClose l = some k → k + 1 ≤ l.length := by
  intro l
  induction l with
  | nil => intro k h; simp [fmtFindClose] at h
  | cons c rest ih =>
    intro k h
    by_cases hc : c = ']'
    · rw [fmtFindClose, if_pos hc] at h
      cases h
      simp
    · rw [fmtFindClose, if_neg hc] at h
      rcases Option.map_eq_some'.mp h with ⟨j, hj, he⟩
      have hle := ih hj
      have he2 : k = j + 1 := by simpa using he.symm
      simp only [List.length_cons]
      omega

/-- The argument-index scan never lengthens the input. -/
theorem fmtArgNum_length_le (l : List Char) : (fmtArgNum l).2.2.length ≤ l.length := by
  rcases l with _ | ⟨c, rest⟩
  · simp [fmtArgNum]
  · rw [fmtArgNum]
    by_cases hc : c = '['
    · rw [if_pos hc]
      by_cases hl : rest.length + 1 < 3
      · rw [if_pos hl]
        simp
      · rw [if_neg hl]
        cases hf : fmtFindClose rest with
        | some k =>
          simp only [List.length_cons, List.length_drop]
          omega
        | none => simp
    · rw [if_neg hc]

/-- Stage 1 of a directive never lengthens the input. -/
theorem fmtStage1_rest_le (l : List Char) : (fmtStage1 l).rest.length ≤ l.length := by
  show (fmtArgNum (dropFlags l)).2.2.length ≤ l.length
  exact le_trans (fmtArgNum_length_le _) (dropFlags_length_le _)

/-- Stage 2 of a directive never lengthens its input. -/
theorem fmtStage2_rest_le (st : FmtSt) : (fmtStage2 st).rest.length ≤ st.rest.length := by
  obtain ⟨em, g, a, rest⟩ := st
  rcases rest with _ | ⟨c, r⟩
  · simp [fmtStage2]
  · show (fmtStage2 ⟨em, g, a, c :: r⟩).rest.length ≤ (c :: r).length
    dsimp only [fmtStage2]
    by_cases hc : c = '*'
    · rw [if_pos hc]
      simp
    · rw [if_neg hc]
      exact fmtParsenum_length_le _ _ _

/-- Stage 3 of a directive never lengthens its input. -/
theorem fmtStage3_rest_le (st : FmtSt) : (fmtStage3 st).rest.length ≤ st.rest.length := by
  obtain ⟨em, g, a, rest⟩ := st
  rcases rest with _ | ⟨c, _ | ⟨c2, r⟩⟩
  · simp [fmtStage3]
  · simp [fmtStage3]
  · show (fmtStage3 ⟨em, g, a, c :: c2 :: r⟩).rest.length ≤ (c :: c2 :: r).length
    dsimp only [fmtStage3]
    by_cases hc : c = '.'
    · rw [if_pos hc]
      have han := fmtArgNum_length_le (c2 :: r)
      rcases hrest : (fmtArgNum (c2 :: r)).2.2 with _ | ⟨c3, r2⟩
      · dsimp only []
        simp
      · rw [hrest] at han
        dsimp only []
        by_cases hc3 : c3 = '*'
        · rw [if_pos hc3]
          simp only [List.length_cons] at han ⊢
          omega
        · rw [if_neg hc3]
          have hp := fmtParsenum_length_le (c3 :: r2) 0 false
          simp only [List.length_cons] at han hp ⊢
          omega
    · rw [if_neg hc]

/-- Stage 4 of a directive never lengthens its input. -/
theorem fmtStage4_rest_le (st : FmtSt) : (fmtStage4 st).rest.length ≤ st.rest.length := by
  rw [fmtStage4]
  by_cases ha : st.afterIndex
  · rw [if_pos ha]
  · rw [if_neg ha]
    exact fmtArgNum_length_le _

/-- The composite directive state never lengthens the input. -/
theorem fmtStepSt_rest_le (l : List Char) : (fmtStepSt l).rest.length ≤ l.length :=
  le_trans (fmtStage4_rest_le _)
    (le_trans (fmtStage3_rest_le _)
      (le_trans (fmtStage2_rest_le _) (fmtStage1_rest_le _)))

/-- One directive never lengthens the input. -/
theorem fmtStep_length_le (l : List Char) : (fmtStep l).2.length ≤ l.length := by
  have h4 := fmtStepSt_rest_le l
  rw [fmtStep]
  rcases hrest : (fmtStepSt l).rest with _ | ⟨v, r⟩
  · simp
  · rw [hrest] at h4
    simp only [List.length_cons] at h4
    dsimp only []
    by_cases hv : v = '%'
    · rw [if_pos hv]
      show r.length ≤ l.length
      omega
    · rw [if_neg hv]
      by_cases hg : (fmtStepSt l).good
      · rw [if_pos hg]
        show r.length ≤ l.length
        omega
      · rw [if_neg hg]
        show r.length ≤ l.length
        omega

/-- Any fuel at least the input length gives the same format-scan result,
so the fuel in `fmtZero` is semantically inert. -/
theorem fmtZeroFuel_congr : ∀ (f g : Nat) (l : List Char),
    l.length ≤ f → l.length ≤ g → fmtZeroFuel f l = fmtZeroFuel g l := by
  intro f
  induction f with
  | zero =>
    intro g l hf _
    have hl : l = [] := List.eq_nil_of_length_eq_zero (Nat.le_zero.mp hf)
    subst hl
    cases g <;> rfl
  | succ f ih =>
    intro g l hf hg
    cases l with
    | nil => cases g <;> rfl
    | cons c cs =>
      cases g with
      | zero => exact absurd hg (by simp)
      | succ g =>
        have hcs : cs.length ≤ f := by simpa using Nat.succ_le_succ_iff.mp hf
        have hcs' : cs.length ≤ g := by simpa using Nat.succ_le_succ_iff.mp hg
        rw [fmtZeroFuel, fmtZeroFuel]
        by_cases hc : c = '%'
        · rw [if_pos hc, if_pos hc]
          have hstep := fmtStep_length_le cs
          show (fmtStep cs).1 ++ fmtZeroFuel f (fmtStep cs).2
            = (fmtStep cs).1 ++ fmtZeroFuel g (fmtStep cs).2
          rw [ih g (fmtStep cs).2 (by omega) (by omega)]
        · rw [if_neg hc, if_neg hc, ih g cs hcs hcs']

/-- A found name resolves to the returned pointer. -/
theorem resolveName_found {p : Placeholder} {values : Resolver} {v : Option String}
    (h : values ⟨p.name⟩ = .ok v) : resolveName p values = .ok v := by
  simp [resolveName, h]

/-- A resolver error with a fallback clause substitutes the fallback
text. -/
theorem resolveName_err_fb {p : Placeholder} {values : Resolver} {m : String}
    (h : values ⟨p.name⟩ = .err m) (hf : p.hasFallback = true) :
    resolveName p values = .ok (some ⟨p.fallback⟩) := by
  simp [resolveName, h, hf]

/-- A parsed token with a resolved text is coerced per its format tag. -/
theorem expandValue_coerce {str : String} {p : Placeholder} {values : Resolver}
    {v : String} (hp : parsePH str.data = some p)
    (hr : resolveName p values = .ok (some v)) :
    expandValue str values = coerceFormat ⟨p.format⟩ v := by
  simp [expandValue, hp, hr]

/-- A parsed token whose resolution is the nil pointer (intentionally
absent) is emitted verbatim with no error. -/
theorem expandValue_absent {str : String} {p : Placeholder} {values : Resolver}
    (hp : parsePH str.data = some p) (hr : resolveName p values = .ok none) :
    expandValue str values = .ok (.fstr str) := by
  simp [expandValue, hp, hr]

/-- No format tag passes the resolved text through as a string. -/
theorem coerceFormat_empty (v : String) : coerceFormat "" v = .ok (.fstr v) := rfl

/-- The whole-string fast path returns a successful expansion as-is. -/
theorem expandString_single_ok {values : Resolver} {s : String} {v : Flat}
    (hs : isSingleChars s.data = true) (he : expandValue s values = .ok v) :
    expandString values s = (flatToValue v, []) := by
  simp [expandString, hs, he]

/-- A string that is not exactly one placeholder goes through the
replacement scan and stays a string. -/
theorem expandString_scan (values : Resolver) {s : String}
    (hs : isSingleChars s.data = false) :
    expandString values s
      = (.vstr ⟨(scanChars values s.data).1⟩, (scanChars values s.data).2) := by
  simp [expandString, hs]

/-- Closed form of the slice loop: elements are expanded in order and the
error lists concatenated in the same order. -/
theorem expandList_eq (values : Resolver) : ∀ xs : List Value,
    expandList values xs
      = (xs.map fun x => (expandV values x).1,
         (xs.map fun x => (expandV values x).2).flatten) := by
  intro xs
  induction xs with
  | nil => rfl
  | cons x xs ih =>
    show ((expandV values x).1 :: (expandList values xs).1,
          (expandV values x).2 ++ (expandList values xs).2) = _
    rw [ih]
    simp

/-- Closed form of the map loop: every key is kept with its expanded value
and the error lists are concatenated in entry order. -/
theorem expandEntries_eq (values : Resolver) : ∀ m : List (String × Value),
    expandEntries values m
      = (m.map fun e => (e.1, (expandV values e.2).1),
         (m.map fun e => (expandV values e.2).2).flatten) := by
  intro m
  induction m with
  | nil => rfl
  | cons e m ih =>
    show ((e.1, (expandV values e.2).1) :: (expandEntries values m).1,
          (expandV values e.2).2 ++ (expandEntries values m).2) = _
    rw [ih]
    simp

/-- C9: `Expand` preserves structure: non-string scalars are returned
unchanged with no error; a sequence becomes a sequence of the same length
with elements expanded in their original order; a mapping keeps every key,
in order, with its value expanded. -/
theorem C9_structural_fidelity :
    (∀ values : Resolver, expandV values .vnull = (.vnull, []))
    ∧ (∀ (values : Resolver) (n : Int), expandV values (.vint n) = (.vint n, []))
    ∧ (∀ (values : Resolver) (f : GoFloat), expandV values (.vfloat f) = (.vfloat f, []))
    ∧ (∀ (values : Resolver) (b : Bool), expandV values (.vbool b) = (.vbool b, []))
    ∧ (∀ (values : Resolver) (xs : List Value),
        expandV values (.vseq xs)
          = (.vseq (xs.map fun x => (expandV values x).1),
             (xs.map fun x => (expandV values x).2).flatten)
        ∧ (xs.map fun x => (expandV values x).1).length = xs.length)
    ∧ (∀ (values : Resolver) (m : List (String × Value)),
        expandV values (.vmap m)
          = (.vmap (m.map fun e => (e.1, (expandV values e.2).1)),
             (m.map fun e => (expandV values e.2).2).flatten)
        ∧ (m.map fun e => (e.1, (expandV values e.2).1)).map Prod.fst
            = m.map Prod.fst) := by
  refine ⟨fun _ => rfl, fun _ _ => rfl, fun _ _ => rfl, fun _ _ => rfl, ?_, ?_⟩
  · intro values xs
    constructor
    · show (Value.vseq (expandList values xs).1, (expandList values xs).2) = _
      rw [expandList_eq]
    · simp
  · intro values m
    constructor
    · show (Value.vmap (expandEntries values m).1, (expandEntries values m).2) = _
      rw [expandEntries_eq]
    · simp

/-- C10: every node that is not a string, a sequence or a string-keyed
mapping — including values outside the documented tree union, embedded as
`Value.vother` — is returned unchanged by the catch-all branch with no
error, making the recursion total over arbitrary inputs. -/
theorem C10_catch_all (values : Resolver) (v : Value)
    (h : isOtherKind v = true) :
    expandV values v = (v, []) ∧ Expand v values = (v, none) := by
  have he : expandV values v = (v, []) := by
    cases v <;> first | rfl | simp [isOtherKind] at h
  exact ⟨he, Expand_of_no_errors he⟩

/-- Witness for C10 at the out-of-union value `Value.vother 7`. -/
theorem C10_catch_all_witness :
    expandV (mapResolver []) (.vother 7) = (.vother 7, [])
    ∧ Expand (.vother 7) (mapResolver []) = (.vother 7, none) :=
  C10_catch_all (mapResolver []) (.vother 7) rfl

/-- Matching `[^\x7d]+\}` against a brace-free body followed by the
closing brace and arbitrary trailing text. -/
theorem spanBody_append {body : List Char} (h : '}' ∉ body) (rest : List Char) :
    spanBody (body ++ '}' :: rest) = some (body, rest) := by
  induction body with
  | nil => simp [spanBody]
  | cons c cs ih =>
    have hc : c ≠ '}' := fun hce => h (hce ▸ List.mem_cons_self c cs)
    have h' : '}' ∉ cs := fun hm => h (List.mem_cons_of_mem c hm)
    simp [spanBody, hc, ih h']

/-- A literal placeholder token at the head of the input is matched by the
detection pattern, with the scan resuming right after its brace. -/
theorem placeholderAt_mk {body : List Char} (hb : body ≠ []) (h : '}' ∉ body)
    (rest : List Char) :
    placeholderAt ('$' :: '{' :: (body ++ '}' :: rest))
      = some ('$' :: '{' :: (body ++ ['}']), rest) := by
  simp [placeholderAt, spanBody_append h rest, hb]

/-- C2: a placeholder immediately preceded by a single backslash is
consumed together with that backslash and replaced by the placeholder text
verbatim — one backslash stripped, the resolver never consulted, no error
— for every resolver; concretely the 5-character `\x5c${X}` expands to the
4-character `${X}`, and with two backslashes only the adjacent one is
stripped, so `\x5c\x5c${X}` yields `\x5c${X}`. -/
theorem C2_backslash_escaping :
    (∀ (values : Resolver) (body rest : List Char), body ≠ [] → '}' ∉ body →
        scanChars values ('\\' :: '$' :: '{' :: (body ++ '}' :: rest))
          = ('$' :: '{' :: (body ++ ['}']) ++ (scanChars values rest).1,
             (scanChars values rest).2))
    ∧ (∀ values : Resolver, Expand (.vstr "\\${X}") values = (.vstr "${X}", none))
    ∧ (∀ values : Resolver,
        Expand (.vstr "\\\\${X}") values = (.vstr "\\${X}", none))
    ∧ "\\${X}".length = 5 ∧ "${X}".length = 4 ∧ "\\\\${X}".length = 6 := by
  have h1 : placeholderAt ['$', '{', 'X', '}'] = some (['$', '{', 'X', '}'], []) := rfl
  have h2 : ∀ values : Resolver, scanChars values ['\\', '$', '{', 'X', '}']
      = (['$', '{', 'X', '}'], []) := by
    intro values
    rw [show (['\\', '$', '{', 'X', '}'] : List Char)
        = '\\' :: ['$', '{', 'X', '}'] from rfl]
    rw [scanChars_esc values h1, scanChars_nil]
    simp
  refine ⟨?_, ?_, ?_, rfl, rfl, rfl⟩
  · intro values body rest hb h
    rw [scanChars_esc values (placeholderAt_mk hb h rest)]
  · intro values
    have h3 : expandV values (.vstr "\\${X}") = (.vstr "${X}", []) := by
      rw [expandV_vstr, expandString_scan values (by decide)]
      rw [show "\\${X}".data = ['\\', '$', '{', 'X', '}'] from rfl, h2]
    exact Expand_of_no_errors h3
  · intro values
    have h0 : placeholderAt ['\\', '$', '{', 'X', '}'] = none := rfl
    have h4 : scanChars values ['\\', '\\', '$', '{', 'X', '}']
        = (['\\', '$', '{', 'X', '}'], []) := by
      rw [show (['\\', '\\', '$', '{', 'X', '}'] : List Char)
          = '\\' :: ['\\', '$', '{', 'X', '}'] from rfl]
      rw [scanChars_esc_none values h0, h2]
    have h3 : expandV values (.vstr "\\\\${X}") = (.vstr "\\${X}", []) := by
      rw [expandV_vstr, expandString_scan values (by decide)]
      rw [show "\\\\${X}".data = ['\\', '\\', '$', '{', 'X', '}'] from rfl, h4]
    exact Expand_of_no_errors h3

/-- Witness for C2 at body `X` with empty trailing text. -/
theorem C2_backslash_escaping_witness :
    scanChars (mapResolver []) ('\\' :: '$' :: '{' :: (['X'] ++ '}' :: []))
      = ('$' :: '{' :: (['X'] ++ ['}']) ++ (scanChars (mapResolver []) []).1,
         (scanChars (mapResolver []) []).2) :=
  C2_backslash_escaping.1 (mapResolver []) ['X'] [] (by decide) (by decide)

/-- C6: when the resolver reports a name as not found (a lookup error), a
placeholder carrying a `:-` fallback clause resolves to the fallback text
with no error (first conjunct, for any parsed placeholder with no format
tag); concretely `${MISSING:-def}` yields `"def"` and the empty fallback
`${MISSING:-}` yields `""`; and the parse keeps an empty fallback clause
(`hasFallback = true`) distinct from an absent one (`hasFallback =
false`). -/
theorem C6_fallback_semantics :
    (∀ (values : Resolver) (str : String) (p : Placeholder) (m : String),
        parsePH str.data = some p → p.hasFallback = true → p.format = [] →
        values ⟨p.name⟩ = .err m →
        expandValue str values = .ok (.fstr ⟨p.fallback⟩))
    ∧ (∀ (values : Resolver) (m : String), values "MISSING" = .err m →
        Expand (.vstr "${MISSING:-def}") values = (.vstr "def", none)
        ∧ Expand (.vstr "${MISSING:-}") values = (.vstr "", none))
    ∧ (parsePH "${MISSING:-}".data = some ⟨"MISSING".data, [], true, "".data⟩
       ∧ parsePH "${MISSING}".data
          = some ⟨"MISSING".data, [], false, "".data⟩) := by
  refine ⟨?_, ?_, rfl, rfl⟩
  · intro values str p m hp hf hfmt hv
    rw [expandValue_coerce hp (resolveName_err_fb hv hf), hfmt]
    exact coerceFormat_empty _
  · intro values m hv
    constructor
    · have hp : parsePH "${MISSING:-def}".data
          = some ⟨"MISSING".data, [], true, "def".data⟩ := rfl
      have he : expandValue "${MISSING:-def}" values = .ok (.fstr "def") := by
        rw [expandValue_coerce hp (resolveName_err_fb hv rfl)]
        exact coerceFormat_empty "def"
      have h3 : expandV values (.vstr "${MISSING:-def}") = (.vstr "def", []) :=
        expandString_single_ok (by decide) he
      exact Expand_of_no_errors h3
    · have hp : parsePH "${MISSING:-}".data
          = some ⟨"MISSING".data, [], true, "".data⟩ := rfl
      have he : expandValue "${MISSING:-}" values = .ok (.fstr "") := by
        rw [expandValue_coerce hp (resolveName_err_fb hv rfl)]
        exact coerceFormat_empty ""
      have h3 : expandV values (.vstr "${MISSING:-}") = (.vstr "", []) :=
        expandString_single_ok (by decide) he
      exact Expand_of_no_errors h3

/-- Witness for C6 with the map-backed resolver on an empty table. -/
theorem C6_fallback_semantics_witness :
    Expand (.vstr "${MISSING:-def}") (mapResolver []) = (.vstr "def", none)
    ∧ Expand (.vstr "${MISSING:-}") (mapResolver []) = (.vstr "", none) :=
  C6_fallback_semantics.2.1 (mapResolver []) "variable MISSING is missing" rfl

/-- C7: when resolution signals "intentionally absent" (nil value pointer
with nil error), the original placeholder text is emitted unchanged and no
error is recorded — shown for every parsed placeholder at the
`expandValue` level, and end to end on both the whole-string and the
embedded path. -/
theorem C7_intentionally_absent :
    (∀ (values : Resolver) (str : String) (p : Placeholder),
        parsePH str.data = some p → values ⟨p.name⟩ = .ok none →
        expandValue str values = .ok (.fstr str))
    ∧ (∀ values : Resolver, values "X" = .ok none →
        Expand (.vstr "${X}") values = (.vstr "${X}", none)
        ∧ Expand (.vstr "a ${X} b") values = (.vstr "a ${X} b", none)) := by
  refine ⟨?_, ?_⟩
  · intro values str p hp hv
    exact expandValue_absent hp (resolveName_found hv)
  · intro values hv
    have hp : parsePH "${X}".data = some ⟨"X".data, [], false, "".data⟩ := rfl
    have he : expandValue "${X}" values = .ok (.fstr "${X}") :=
      expandValue_absent hp (resolveName_found hv)
    constructor
    · have h3 : expandV values (.vstr "${X}") = (.vstr "${X}", []) :=
        expandString_single_ok (by decide) he
      exact Expand_of_no_errors h3
    · have hplace : placeholderAt ('$' :: ['{', 'X', '}', ' ', 'b'])
          = some (['$', '{', 'X', '}'], [' ', 'b']) := rfl
      have s2 : scanChars values ['$', '{', 'X', '}', ' ', 'b']
          = (['$', '{', 'X', '}', ' ', 'b'], []) := by
        rw [scanChars_tok_ok values (by decide) hplace he]
        rfl
      have s1 : scanChars values "a ${X} b".data = ("a ${X} b".data, []) := by
        rw [show "a ${X} b".data
            = 'a' :: ' ' :: ['$', '{', 'X', '}', ' ', 'b'] from rfl]
        rw [scanChars_skip values (by decide) (by decide)]
        rw [scanChars_skip values (by decide) (by decide)]
        rw [s2]
      have h3 : expandV values (.vstr "a ${X} b") = (.vstr "a ${X} b", []) := by
        have h4 := expandString_scan values (s := "a ${X} b") (by decide)
        rw [expandV_vstr, h4, s1]
      exact Expand_of_no_errors h3

/-- Witness for C7 with a resolver marking `X` as intentionally absent. -/
theorem C7_intentionally_absent_witness :
    Expand (.vstr "${X}") (fun _ => .ok none) = (.vstr "${X}", none)
    ∧ Expand (.vstr "a ${X} b") (fun _ => .ok none)
        = (.vstr "a ${X} b", none) :=
  C7_intentionally_absent.2 (fun _ => .ok none) rfl

